import Mathlib

/-!
Verification of the orbtk core subsystems against their specification:
the theme cascade (`crates/theme/src/theme.rs`), the event dispatch and
widget lifecycle system (`crates/api/src/systems/event_state_system.rs`),
the text-selection layout (`crates/api/src/layout/text_selection.rs`) and
the text-behavior cursor movement
(`crates/widgets/src/behaviors/text_behavior.rs`), shallowly embedded in
Lean. Rust `String`s are embedded as `List Char` (Lean's `String`
primitives do not reduce in the kernel), and `f64` values of the layout
code are embedded as exact integers: the layout logic under study uses
only addition, subtraction, negation and order comparisons.
-/

namespace OrbTk

/-- Rust strings, embedded as character lists. -/
abbrev Str := List Char

/-! ## Theme cascade (crates/theme/src/theme.rs) -/

/-- Model of `ron::Value`: either a string or some other opaque value
(only stringness matters to `Theme::get_property_value`). -/
inductive RValue where
  | str (s : Str)
  | other (tag : Nat)
deriving DecidableEq, Repr

/-- The `Selector` of theme.rs: optional style name, optional state name and
a dirty flag. -/
structure Selector where
  style : Option Str
  state : Option Str
  dirty : Bool
deriving DecidableEq, Repr

/-- A `Style` of theme.rs: base style name (empty string meaning none), state
property maps and the property map; the Rust `HashMap`s are modelled as
association lists. -/
structure Style where
  base : Str
  states : List (Str × List (Str × RValue))
  properties : List (Str × RValue)
deriving DecidableEq, Repr

/-- The `Theme` of theme.rs: styles and resources. -/
structure Theme where
  styles : List (Str × Style)
  resources : List (Str × RValue)
deriving DecidableEq, Repr

/-- The fixed fallback style name (`BASE_STYLE` in theme.rs). -/
def BASE_STYLE : Str := "base".toList

/-- The resource sigil character (`RESOURCE_KEY = "$"` in theme.rs). -/
def sigil : Char := '$'

/-- Rust `key.starts_with(RESOURCE_KEY)` for the one-character sigil `"$"`. -/
def startsWithSigil : Str → Bool
  | [] => false
  | c :: _ => c == sigil

/-- Rust `key.replace(RESOURCE_KEY, "")` for the one-character pattern `"$"`
and empty replacement: every occurrence of `$` is removed. -/
def stripSigils (s : Str) : Str := s.filter (fun c => c != sigil)

/-- `Theme::get_property_value`: look the property up in the given map; a
string value starting with `$` is redirected through the resources table
under the key produced by `String::replace` (which removes every occurrence
of `$`); a missing resource yields `none` via the `?` operator. -/
def Theme.getPropertyValue (theme : Theme) (property : Str)
    (properties : List (Str × RValue)) : Option RValue :=
  match List.lookup property properties with
  | none => none
  | some v =>
    match v with
    | .str s =>
      if startsWithSigil s then List.lookup (stripSigils s) theme.resources
      else some (.str s)
    | .other t => some (.other t)

/-- Look the property up in the state map named `st` of the given style;
when the style lacks that state, use the fall-through value (mirrors the two
`style.states.get(state)` sites of `Theme::get_property`). -/
def Theme.stateOnStyle (theme : Theme) (property st : Str) (style : Style)
    (fallthrough : Option RValue) : Option RValue :=
  match List.lookup st style.states with
  | some props => theme.getPropertyValue property props
  | none => fallthrough

/-- The one-level base-style state lookup of `Theme::get_property`: resolve
the style's base by name and consult its state map, otherwise fall through. -/
def Theme.stateOnBase (theme : Theme) (property st : Str) (style : Style)
    (fallthrough : Option RValue) : Option RValue :=
  match List.lookup style.base theme.styles with
  | some baseStyle => theme.stateOnStyle property st baseStyle fallthrough
  | none => fallthrough

/-- The plain (non-state) lookup path of `Theme::get_property`: the style's
own property map first, then — for a nonempty base name — the base style
through `recurse` (the recursive call at one less fuel). -/
def Theme.plainWith (theme : Theme) (recurse : Style → Option RValue)
    (property : Str) (style : Style) : Option RValue :=
  match theme.getPropertyValue property style.properties with
  | some v => some v
  | none =>
    if style.base = [] then none
    else
      match List.lookup style.base theme.styles with
      | some baseStyle => recurse baseStyle
      | none => none

/-- `Theme::get_property`, with explicit fuel for the recursion through the
base chain (the Rust code requires base chains to be acyclic). State
properties are looked up first on the style, then one level down on its base
style; when neither has the requested state (or there is no state at all),
the lookup falls through to the plain properties and then recurses through
the base chain. When a state is requested, the style lacks it, and the base
name is empty, the Rust code returns `None` before the plain lookup. -/
def Theme.getProperty (theme : Theme) :
    Nat → Str → Style → Selector → Option RValue
  | 0, _, _, _ => none
  | fuel+1, property, style, selector =>
    let plain := theme.plainWith
      (fun baseStyle => theme.getProperty fuel property baseStyle selector)
      property style
    match selector.state with
    | some st =>
      theme.stateOnStyle property st style
        (if style.base = [] then none
         else theme.stateOnBase property st style plain)
    | none => plain

lemma getProperty_succ (theme : Theme) (fuel : Nat) (property : Str)
    (style : Style) (selector : Selector) :
    theme.getProperty (fuel+1) property style selector =
      match selector.state with
      | some st =>
        theme.stateOnStyle property st style
          (if style.base = [] then none
           else theme.stateOnBase property st style
             (theme.plainWith
               (fun baseStyle =>
                 theme.getProperty fuel property baseStyle selector)
               property style))
      | none =>
        theme.plainWith
          (fun baseStyle => theme.getProperty fuel property baseStyle selector)
          property style := rfl

/-- `Theme::property`: resolve through the selector's style; when the style
name matches no style (or no style name is given), fall back to the style
named `"base"`. -/
def Theme.property (theme : Theme) (fuel : Nat) (property : Str)
    (selector : Selector) : Option RValue :=
  let fallback :=
    match List.lookup BASE_STYLE theme.styles with
    | some baseStyle => theme.getProperty fuel property baseStyle selector
    | none => none
  match selector.style with
  | some styleName =>
    match List.lookup styleName theme.styles with
    | some style => theme.getProperty fuel property style selector
    | none => fallback
  | none => fallback

/-- The base chain of a style, as traversed by `Theme::get_property`. -/
def Theme.styleChain (theme : Theme) : Nat → Style → List Style
  | 0, style => [style]
  | fuel+1, style =>
    style ::
      (if style.base = [] then []
       else
         match List.lookup style.base theme.styles with
         | some baseStyle => theme.styleChain fuel baseStyle
         | none => [])

/-- A property name is absent from a style when neither its property map nor
any of its state maps binds it. -/
def propertyAbsent (property : Str) (style : Style) : Prop :=
  List.lookup property style.properties = none ∧
    ∀ p ∈ style.states, List.lookup property p.2 = none

instance (property : Str) (style : Style) :
    Decidable (propertyAbsent property style) := by
  unfold propertyAbsent; infer_instance

lemma lookup_mem {α β : Type _} [BEq α] [LawfulBEq α] {k : α} {v : β} :
    ∀ {l : List (α × β)}, List.lookup k l = some v → (k, v) ∈ l := by
  intro l
  induction l with
  | nil => intro h; simp at h
  | cons p es ih =>
    intro h
    obtain ⟨a, b⟩ := p
    rw [List.lookup_cons] at h
    cases hab : (k == a) with
    | true =>
      rw [hab] at h
      simp only [Option.some.injEq] at h
      subst h
      have : k = a := eq_of_beq hab
      subst this
      exact List.mem_cons_self _ _
    | false =>
      rw [hab] at h
      exact List.mem_cons_of_mem _ (ih h)

lemma getPropertyValue_none (theme : Theme) (property : Str)
    (props : List (Str × RValue)) (h : List.lookup property props = none) :
    theme.getPropertyValue property props = none := by
  unfold Theme.getPropertyValue
  rw [h]

lemma stateOnStyle_absent (theme : Theme) (property st : Str) (style : Style)
    (fallthrough : Option RValue) (habs : propertyAbsent property style)
    (hft : fallthrough = none) :
    theme.stateOnStyle property st style fallthrough = none := by
  unfold Theme.stateOnStyle
  cases hsl : List.lookup st style.states with
  | some props =>
    exact getPropertyValue_none theme property props
      (habs.2 (st, props) (lookup_mem hsl))
  | none => exact hft

lemma getProperty_absent (theme : Theme) (property : Str) (sel : Selector) :
    ∀ (fuel : Nat) (style : Style),
      (∀ s ∈ theme.styleChain fuel style, propertyAbsent property s) →
      theme.getProperty fuel property style sel = none := by
  intro fuel
  induction fuel with
  | zero => intro style _; rfl
  | succ fuel ih =>
    intro style habs
    have hhead : propertyAbsent property style := by
      apply habs; cases fuel <;> simp [Theme.styleChain]
    have hbasechain : ∀ baseStyle, style.base ≠ [] →
        List.lookup style.base theme.styles = some baseStyle →
        ∀ s ∈ theme.styleChain fuel baseStyle, propertyAbsent property s := by
      intro baseStyle hb hlb s hs
      apply habs
      simp [Theme.styleChain, hb, hlb, hs]
    have hplain : theme.plainWith
        (fun baseStyle => theme.getProperty fuel property baseStyle sel)
        property style = none := by
      unfold Theme.plainWith
      rw [getPropertyValue_none theme property style.properties hhead.1]
      by_cases hb : style.base = []
      · simp [hb]
      · simp only [hb, if_false]
        cases hlb : List.lookup style.base theme.styles with
        | none => rfl
        | some baseStyle => exact ih baseStyle (hbasechain baseStyle hb hlb)
    rw [getProperty_succ]
    cases hst : sel.state with
    | none => exact hplain
    | some st =>
      apply stateOnStyle_absent theme property st style _ hhead
      by_cases hb : style.base = []
      · simp [hb]
      · simp only [hb, if_false]
        unfold Theme.stateOnBase
        cases hlb : List.lookup style.base theme.styles with
        | none => exact hplain
        | some baseStyle =>
          apply stateOnStyle_absent
          · refine habs baseStyle ?_
            cases fuel with
            | zero => simp [Theme.styleChain, hb, hlb]
            | succ f => simp [Theme.styleChain, hb, hlb]
          · exact hplain

/-- C6: theme lookup falls back to the style named `"base"` when the
selector's style name matches no style in the theme (first conjunct), and
resolution yields no value when the property is absent at every level of the
applicable style's base chain (second conjunct). -/
theorem theme_base_fallback_and_absent (theme : Theme) (fuel : Nat)
    (property sname : Str) (sel : Selector) (bstyle : Style)
    (hstyle : sel.style = some sname)
    (hmiss : List.lookup sname theme.styles = none)
    (hbase : List.lookup BASE_STYLE theme.styles = some bstyle) :
    theme.property fuel property sel =
      theme.getProperty fuel property bstyle sel ∧
    ∀ style : Style,
      (∀ s ∈ theme.styleChain fuel style, propertyAbsent property s) →
      theme.getProperty fuel property style sel = none := by
  constructor
  · unfold Theme.property
    rw [hstyle]
    simp only [hmiss, hbase]
  · intro style habs
    exact getProperty_absent theme property sel fuel style habs

/-- Witness for C6 at a concrete theme: the selector style `"missing"`
matches no style so resolution proceeds on the style named `"base"`, and a
property absent from the whole chain resolves to nothing. -/
theorem theme_base_fallback_and_absent_witness :
    (Theme.property
        ⟨[(BASE_STYLE, ⟨[], [], [("fg".toList, .other 7)]⟩)], []⟩ 2
        "fg".toList ⟨some "missing".toList, none, true⟩ =
      Theme.getProperty
        ⟨[(BASE_STYLE, ⟨[], [], [("fg".toList, .other 7)]⟩)], []⟩ 2
        "fg".toList ⟨[], [], [("fg".toList, .other 7)]⟩
        ⟨some "missing".toList, none, true⟩) ∧
    Theme.getProperty
        ⟨[(BASE_STYLE, ⟨[], [], [("fg".toList, .other 7)]⟩)], []⟩ 2
        "bg".toList ⟨[], [], [("fg".toList, .other 7)]⟩
        ⟨some "missing".toList, none, true⟩ = none := by
  constructor
  · exact (theme_base_fallback_and_absent
      ⟨[(BASE_STYLE, ⟨[], [], [("fg".toList, .other 7)]⟩)], []⟩ 2
      "fg".toList "missing".toList ⟨some "missing".toList, none, true⟩
      ⟨[], [], [("fg".toList, .other 7)]⟩ rfl (by decide) (by decide)).1
  · exact (theme_base_fallback_and_absent
      ⟨[(BASE_STYLE, ⟨[], [], [("fg".toList, .other 7)]⟩)], []⟩ 2
      "bg".toList "missing".toList ⟨some "missing".toList, none, true⟩
      ⟨[], [], [("fg".toList, .other 7)]⟩ rfl (by decide) (by decide)).2
      ⟨[], [], [("fg".toList, .other 7)]⟩ (by decide)

/-- The sigil-stripped key in the sense of the specification sentence: the
stored value begins with the sigil `$`, and the stripped key is the
remainder after that leading sigil. -/
def sigilStripped (s : Str) : Str := s.drop 1

/-- C7 counterexample: the code strips every `$` from the value (Rust
`str::replace`), not only the leading sigil. For the stored value `"$a$b"`
the sigil-stripped key is `"a$b"`; the resources table binds exactly that
key, yet lookup returns no value (the code asks for `"ab"` instead). -/
theorem resource_indirection_counterexample :
    startsWithSigil "$a$b".toList = true ∧
    sigilStripped "$a$b".toList = "a$b".toList ∧
    List.lookup (sigilStripped "$a$b".toList)
        (Theme.resources ⟨[], [("a$b".toList, .str "#FF0000".toList)]⟩) =
      some (.str "#FF0000".toList) ∧
    Theme.getPropertyValue ⟨[], [("a$b".toList, .str "#FF0000".toList)]⟩
        "color".toList [("color".toList, .str "$a$b".toList)] = none := by
  refine ⟨by decide, by decide, by decide, by decide⟩

/-- C7 (amended): for a stored string value beginning with `$`, lookup
returns exactly the resources-table entry under the key obtained by deleting
every occurrence of `$` from the value (so a missing resource yields no
value, never the literal string). -/
theorem resource_indirection_amended (theme : Theme) (property : Str)
    (props : List (Str × RValue)) (s : Str)
    (hlook : List.lookup property props = some (.str s))
    (hsig : startsWithSigil s = true) :
    theme.getPropertyValue property props =
      List.lookup (stripSigils s) theme.resources := by
  unfold Theme.getPropertyValue
  rw [hlook]
  simp [hsig]

/-- Witness for C7 (amended) at the spec's own example: `"$accent"` with
`resources["accent"] = "#FF0000"` resolves to `"#FF0000"`. -/
theorem resource_indirection_amended_witness :
    (List.lookup "c".toList [("c".toList, RValue.str "$accent".toList)] =
      some (.str "$accent".toList)) ∧
    Theme.getPropertyValue ⟨[], [("accent".toList, .str "#FF0000".toList)]⟩
        "c".toList [("c".toList, RValue.str "$accent".toList)] =
      List.lookup (stripSigils "$accent".toList)
        (Theme.resources ⟨[], [("accent".toList, .str "#FF0000".toList)]⟩) := by
  refine ⟨by decide, ?_⟩
  exact resource_indirection_amended
    ⟨[], [("accent".toList, .str "#FF0000".toList)]⟩ "c".toList
    [("c".toList, RValue.str "$accent".toList)] "$accent".toList (by decide)
    (by decide)

/-! ## Cursor movement (crates/widgets/src/behaviors/text_behavior.rs) -/

/-- The `TextSelection` component: start index and length, in UTF-16 code
units of the text value. -/
structure TextSelection where
  start_index : Nat
  length : Nat
deriving DecidableEq, Repr

/-- `TextBehaviorState::move_cursor_left`: when the cursor is expanded the
selection is first collapsed to the start; then the start index is
decremented with saturation at 0 (`(i as i32 - 1).max(0) as usize`), the
length zeroed, and the cursor's `expanded` flag cleared. The selection is
read through `try_get_mut`, hence the `Option`. Returns the new selection
and the new `expanded` flag. -/
def moveCursorLeft (expanded : Bool) (sel : Option TextSelection) :
    Option TextSelection × Bool :=
  let sel1 := if expanded then sel.map (fun _ => ⟨0, 0⟩) else sel
  let sel2 := sel1.map
    (fun s => ⟨(max ((s.start_index : Int) - 1) 0).toNat, 0⟩)
  (sel2, false)

/-- `TextBehaviorState::move_cursor_right`: when the cursor is expanded the
selection collapses to the end of the text and the function returns early;
otherwise the start index advances by one only while it is below the text
length (`min` against the length), the length is zeroed, and `expanded` is
cleared. -/
def moveCursorRight (textLen : Nat) (expanded : Bool)
    (sel : Option TextSelection) : Option TextSelection × Bool :=
  if expanded then (sel.map (fun _ => ⟨textLen, 0⟩), false)
  else
    (sel.map
      (fun s =>
        if s.start_index < textLen then ⟨min (s.start_index + 1) textLen, 0⟩
        else ⟨s.start_index, 0⟩),
     false)

/-- C10 counterexample: for the empty text (length 0) and a starting
selection whose start index 2 already lies outside the text,
`move_cursor_left` yields start index 1, still outside the bounds
`[0, text length]` claimed to be an invariant for every starting
selection. -/
theorem move_cursor_counterexample :
    (moveCursorLeft false (some ⟨2, 0⟩)).1 = some ⟨1, 0⟩ ∧ ¬ (1 ≤ 0) := by
  refine ⟨by decide, by decide⟩

/-- C10 (amended): provided the starting start index lies within
`[0, text length]`, both cursor moves keep it there, zero the selection
length, and clear the cursor's `expanded` flag. -/
theorem move_cursor_invariant (textLen : Nat) (expanded : Bool)
    (s : TextSelection) (h : s.start_index ≤ textLen) :
    (∀ r, (moveCursorLeft expanded (some s)).1 = some r →
      r.start_index ≤ textLen ∧ r.length = 0) ∧
    (moveCursorLeft expanded (some s)).2 = false ∧
    (∀ r, (moveCursorRight textLen expanded (some s)).1 = some r →
      r.start_index ≤ textLen ∧ r.length = 0) ∧
    (moveCursorRight textLen expanded (some s)).2 = false := by
  refine ⟨?_, ?_, ?_, ?_⟩
  · intro r hr
    cases expanded
    · have heq : moveCursorLeft false (some s) =
          (some ⟨(max ((s.start_index : Int) - 1) 0).toNat, 0⟩, false) := rfl
      rw [heq] at hr
      rw [← Option.some.inj hr]
      refine ⟨?_, rfl⟩
      dsimp only
      rw [Int.max_def]
      split <;> omega
    · have heq : moveCursorLeft true (some s) =
          (some ⟨(max ((0 : Int) - 1) 0).toNat, 0⟩, false) := rfl
      rw [heq] at hr
      rw [← Option.some.inj hr]
      refine ⟨?_, rfl⟩
      dsimp only
      rw [Int.max_def]
      split <;> omega
  · cases expanded <;> rfl
  · intro r hr
    cases expanded
    · have heq : moveCursorRight textLen false (some s) =
          (some (if s.start_index < textLen then
              (⟨min (s.start_index + 1) textLen, 0⟩ : TextSelection)
            else ⟨s.start_index, 0⟩), false) := rfl
      rw [heq] at hr
      rw [← Option.some.inj hr]
      split <;> exact ⟨by dsimp only; omega, rfl⟩
    · have heq : moveCursorRight textLen true (some s) =
          (some ⟨textLen, 0⟩, false) := rfl
      rw [heq] at hr
      rw [← Option.some.inj hr]
      exact ⟨le_refl _, rfl⟩
  · cases expanded <;> rfl

/-- Witness for C10 (amended) at text length 3, caret at 2, collapsed
cursor: moving left lands on 1, inside the bounds, with length 0. -/
theorem move_cursor_invariant_witness :
    ((2 : Nat) ≤ 3) ∧
    ((⟨1, 0⟩ : TextSelection).start_index ≤ 3 ∧
      (⟨1, 0⟩ : TextSelection).length = 0) := by
  refine ⟨by decide, ?_⟩
  exact (move_cursor_invariant 3 false ⟨2, 0⟩ (by decide)).1 ⟨1, 0⟩ (by decide)

/-! ## Direct dispatch (EventStateSystem::process_direct) -/

/-- Handler lists are abstracted by what `handle_event` returns: one `Bool`
per registered handler ("handled"). The handler map yields `none` for an
entity with no registered handlers. -/
abbrev HandlerMap := Nat → Option (List Bool)

/-- Indices of the handlers a Rust `Iterator::any` run invokes over a
handler list: every handler up to and including the first that returns
true (all of them when none does). -/
def invokedFrom : Nat → List Bool → List Nat
  | _, [] => []
  | i, b :: rest => i :: (if b then [] else invokedFrom (i+1) rest)

/-- Handler indices invoked by `handlers.iter().any(...)`. -/
def invokedIdxs (hs : List Bool) : List Nat := invokedFrom 0 hs

/-- The event strategies of the dispatch system (`EventStrategy`). -/
inductive EventStrategy where
  | direct
  | bottomUp
deriving DecidableEq, Repr

/-- `EventStateSystem::process_direct`: on the very first run nothing
happens; otherwise, for a direct-strategy event whose source has registered
handlers, those handlers run via `any` and the function reports an update.
The result is the update flag and the invoked (entity, handler index)
pairs. -/
def processDirect (firstRun : Bool) (strategy : EventStrategy)
    (hm : HandlerMap) (source : Nat) : Bool × List (Nat × Nat) :=
  if firstRun then (false, [])
  else if strategy = .direct then
    match hm source with
    | some hs => (true, (invokedIdxs hs).map (fun k => (source, k)))
    | none => (false, [])
  else (false, [])

/-- C4: direct events reach only the registered handlers of the event's
exact source entity (every invoked pair names the source), and on the very
first run every direct event is suppressed entirely (no handler invoked). -/
theorem direct_dispatch_source_only (strategy : EventStrategy)
    (hm : HandlerMap) (source : Nat) (p : Nat × Nat)
    (hp : p ∈ (processDirect false strategy hm source).2) :
    p.1 = source ∧ (processDirect true strategy hm source).2 = [] := by
  refine ⟨?_, rfl⟩
  revert hp
  unfold processDirect
  by_cases hs : strategy = EventStrategy.direct
  · simp only [hs, reduceIte]
    cases hm source with
    | none => intro hp; simp at hp
    | some hs2 =>
      intro hp
      obtain ⟨k, _, hk⟩ := List.mem_map.mp hp
      rw [← hk]
  · simp only [hs, reduceIte]
    intro hp
    simp at hp

/-- Witness for C4 at a concrete handler map with one handler on entity 5. -/
theorem direct_dispatch_source_only_witness :
    ((5, 0) : Nat × Nat).1 = 5 ∧
    (processDirect true .direct
      (fun e => if e = 5 then some [true] else none) 5).2 = [] := by
  exact direct_dispatch_source_only .direct
    (fun e => if e = 5 then some [true] else none) 5 (5, 0) (by decide)

/-! ## Quit short-circuit (EventStateSystem::run_with_context) -/

/-- A queued event as seen by the drain loop of `run_with_context`: a
system quit event, or an ordinary event with a strategy and source. -/
inductive QEvent where
  | quit
  | ev (strategy : EventStrategy) (source : Nat)
deriving DecidableEq, Repr

/-- The drain loop of `run_with_context` followed by the dirty-widget
state-update phase of the same tick: each ordinary event is processed in
queue order, but a `SystemEvent::Quit` makes the whole function return at
once. Returns the list of events that were processed and whether the
dirty-widget phase after the loop was reached. -/
def drainTick : List QEvent → List QEvent × Bool
  | [] => ([], true)
  | e :: rest =>
    match e with
    | .quit => ([], false)
    | .ev strategy source =>
      let r := drainTick rest
      (.ev strategy source :: r.1, r.2)

/-- C5: when a quit event sits in the queue, the tick processes exactly the
events before it — nothing queued after the quit is processed — and the
dirty-widget state-update phase of that tick is never reached. -/
theorem quit_short_circuit (pre post : List QEvent)
    (h : QEvent.quit ∉ pre) :
    drainTick (pre ++ QEvent.quit :: post) = (pre, false) := by
  induction pre with
  | nil => rfl
  | cons e rest ih =>
    cases e with
    | quit => exact absurd (List.mem_cons_self _ _) h
    | ev strategy source =>
      have hrest : QEvent.quit ∉ rest :=
        fun hm2 => h (List.mem_cons_of_mem _ hm2)
      have hstep : drainTick
          (QEvent.ev strategy source :: (rest ++ QEvent.quit :: post)) =
          (QEvent.ev strategy source ::
              (drainTick (rest ++ QEvent.quit :: post)).1,
           (drainTick (rest ++ QEvent.quit :: post)).2) := rfl
      rw [List.cons_append, hstep, ih hrest]

/-- Witness for C5: a quit between two ordinary events drops the trailing
event and the dirty phase. -/
theorem quit_short_circuit_witness :
    QEvent.quit ∉ [QEvent.ev .direct 1] ∧
    drainTick [QEvent.ev .direct 1, QEvent.quit, QEvent.ev .bottomUp 2] =
      ([QEvent.ev .direct 1], false) := by
  refine ⟨by decide, ?_⟩
  exact quit_short_circuit [QEvent.ev .direct 1] [QEvent.ev .bottomUp 2]
    (by decide)

/-! ## Pointer-event matching (EventStateSystem::process_bottom_up_event,
lines 169–294) -/

/-- The pointer-family event kinds distinguished by the hit-test walk. -/
inductive PointerEvent where
  | scroll
  | click
  | mouseDown
  | mouseMove
deriving DecidableEq, Repr

instance : Fintype PointerEvent :=
  ⟨⟨{.scroll, .click, .mouseDown, .mouseMove}, by decide⟩,
   fun x => by cases x <;> decide⟩

/-- Whether the hit-test walk pushes the current node onto `matching_nodes`
for a pointer event. `contains` is `check_mouse_condition` for the node
itself; `clipContains` is the same check against the first entry of the
`clipped_parent` stack (`none` when that stack is empty); `hasHandler` says
whether some registered handler declares it handles this event. Transcribed
branch by branch from the Rust: scroll demands containment and a handler;
click and mouse-move drop the node when it fails the clip check and
otherwise demand a handler; mouse-down applies the clip check only to nodes
that have a handler and pushes the node regardless of `hasHandler`. -/
def addsToMatching : PointerEvent → Bool → Option Bool → Bool → Bool
  | .scroll, contains, _, hasHandler => contains && hasHandler
  | .click, contains, clipContains, hasHandler =>
    if contains then
      let add := match clipContains with
        | some c => if !c then false else true
        | none => true
      add && hasHandler
    else false
  | .mouseDown, contains, clipContains, hasHandler =>
    if contains then
      let add := match clipContains with
        | some c => if !c && hasHandler then false else true
        | none => true
      add
    else false
  | .mouseMove, contains, clipContains, hasHandler =>
    if contains then
      let add := match clipContains with
        | some c => if !c then false else true
        | none => true
      add && hasHandler
    else false

/-- C3 counterexample: the claim says click and mouse-move nodes can enter
the matching list without a declared handler; in the code neither ever
does — under no containment/clip condition is a handlerless node added for
a click or a mouse-move. -/
theorem pointer_matching_counterexample :
    (¬ ∃ contains clipContains,
      addsToMatching .click contains clipContains false = true) ∧
    (¬ ∃ contains clipContains,
      addsToMatching .mouseMove contains clipContains false = true) := by
  constructor <;> decide

/-- C3 (amended): scroll, click and mouse-move all require a declared
handler (scroll: containment and handler; click and mouse-move: containment,
clip containment and handler); only mouse-down can add a node without a
handler — containment alone suffices then, the clip check being applied
only to nodes that do have a handler. -/
theorem pointer_matching_conditions :
    ∀ (contains : Bool) (clipContains : Option Bool) (hasHandler : Bool),
      addsToMatching .scroll contains clipContains hasHandler =
        (contains && hasHandler) ∧
      addsToMatching .click contains clipContains hasHandler =
        (contains && clipContains.getD true && hasHandler) ∧
      addsToMatching .mouseMove contains clipContains hasHandler =
        (contains && clipContains.getD true && hasHandler) ∧
      addsToMatching .mouseDown contains clipContains hasHandler =
        (contains && (clipContains.getD true || !hasHandler)) := by
  decide

/-! ## Bubbling dispatch (EventStateSystem::process_bottom_up_event,
lines 313–335) -/

/-- The (entity, handler index) pairs invoked on one node of the matching
list: all registered handlers up to and including the first that reports
the event handled; nothing when the node has no handler-map entry. -/
def nodeInvocations (hm : HandlerMap) (n : Nat) : List (Nat × Nat) :=
  match hm n with
  | some hs => (invokedIdxs hs).map (fun k => (n, k))
  | none => []

/-- A node whose registered handlers report the event handled (its
`handlers.iter().any(...)` run returns true). -/
def nodeHandled (hm : HandlerMap) (n : Nat) : Prop :=
  ∃ hs, hm n = some hs ∧ hs.contains true = true

/-- The dispatch loop over the already-reversed matching list: a node with
a handler-map entry has its handlers run via `any` and sets the update
flag; when that run reports handled, the loop breaks. Returns the update
flag and the invoked (entity, handler index) pairs in invocation order. -/
def dispatchCollected (hm : HandlerMap) :
    List Nat → Bool → Bool × List (Nat × Nat)
  | [], update => (update, [])
  | n :: rest, update =>
    match hm n with
    | none => dispatchCollected hm rest update
    | some hs =>
      if hs.contains true then
        (true, (invokedIdxs hs).map (fun k => (n, k)))
      else
        let r := dispatchCollected hm rest true
        (r.1, (invokedIdxs hs).map (fun k => (n, k)) ++ r.2)

/-- The dispatch stage of `process_bottom_up_event`: the collected
`matching_nodes` are walked in reverse collection order
(`matching_nodes.iter().rev()`). -/
def processBottomUpDispatch (hm : HandlerMap) (matching : List Nat) :
    Bool × List (Nat × Nat) :=
  dispatchCollected hm matching.reverse false

lemma mem_dropLast_cons {α : Type _} {x a : α} {l : List α}
    (h : x ∈ (a :: l).dropLast) : x = a ∨ x ∈ l.dropLast := by
  cases l with
  | nil => simp at h
  | cons b t =>
    rw [List.dropLast_cons₂] at h
    rcases List.mem_cons.mp h with h1 | h1
    · exact Or.inl h1
    · exact Or.inr h1

/-- Characterization of the dispatch loop: it processes exactly a prefix of
the walked list, the invocations are the concatenation of the per-node
invocations over that prefix, every processed node except possibly the last
did not report the event handled, and the walk only stops short of the end
on a node that did. -/
lemma dispatchCollected_split (hm : HandlerMap) :
    ∀ (l : List Nat) (u : Bool),
      ∃ pref rest, l = pref ++ rest ∧
        (dispatchCollected hm l u).2 = pref.flatMap (nodeInvocations hm) ∧
        (∀ n ∈ pref.dropLast, ¬ nodeHandled hm n) ∧
        (rest = [] ∨ ∃ m pref2, pref = pref2 ++ [m] ∧ nodeHandled hm m) := by
  intro l
  induction l with
  | nil =>
    intro u
    exact ⟨[], [], rfl, rfl, by simp, Or.inl rfl⟩
  | cons n tail ih =>
    intro u
    cases hhm : hm n with
    | none =>
      obtain ⟨pref, rest, heq, hinv, hdrop, hlast⟩ := ih u
      have hstep : dispatchCollected hm (n :: tail) u =
          dispatchCollected hm tail u := by
        simp only [dispatchCollected, hhm]
      refine ⟨n :: pref, rest, by rw [List.cons_append, ← heq], ?_, ?_, ?_⟩
      · rw [hstep, List.flatMap_cons, hinv]
        have : nodeInvocations hm n = [] := by
          unfold nodeInvocations; rw [hhm]
        rw [this, List.nil_append]
      · intro x hx
        rcases mem_dropLast_cons hx with h1 | h1
        · subst h1
          rintro ⟨hs, hhs, _⟩
          rw [hhm] at hhs
          exact Option.noConfusion hhs
        · exact hdrop x h1
      · rcases hlast with h1 | ⟨m, pref2, heq2, hh⟩
        · exact Or.inl h1
        · exact Or.inr ⟨m, n :: pref2, by rw [heq2, List.cons_append], hh⟩
    | some hs =>
      by_cases hc : hs.contains true = true
      · have hstep : dispatchCollected hm (n :: tail) u =
            (true, (invokedIdxs hs).map (fun k => (n, k))) := by
          simp only [dispatchCollected, hhm, hc, if_true]
        refine ⟨[n], tail, rfl, ?_, by simp, ?_⟩
        · rw [hstep, List.flatMap_cons]
          have : nodeInvocations hm n =
              (invokedIdxs hs).map (fun k => (n, k)) := by
            unfold nodeInvocations; rw [hhm]
          rw [this]
          simp
        · exact Or.inr ⟨n, [], rfl, ⟨hs, hhm, hc⟩⟩
      · obtain ⟨pref, rest, heq, hinv, hdrop, hlast⟩ := ih true
        have hcf : hs.contains true = false := by
          rwa [Bool.not_eq_true] at hc
        have hstep : dispatchCollected hm (n :: tail) u =
            ((dispatchCollected hm tail true).1,
             (invokedIdxs hs).map (fun k => (n, k)) ++
               (dispatchCollected hm tail true).2) := by
          simp only [dispatchCollected, hhm, hcf, if_false, Bool.false_eq_true]
        refine ⟨n :: pref, rest, by rw [List.cons_append, ← heq], ?_, ?_, ?_⟩
        · rw [hstep, List.flatMap_cons, hinv]
          have : nodeInvocations hm n =
              (invokedIdxs hs).map (fun k => (n, k)) := by
            unfold nodeInvocations; rw [hhm]
          rw [this]
        · intro x hx
          rcases mem_dropLast_cons hx with h1 | h1
          · subst h1
            rintro ⟨hs2, hhs2, hc2⟩
            rw [hhm] at hhs2
            rw [Option.some.inj hhs2] at hc
            exact hc hc2
          · exact hdrop x h1
        · rcases hlast with h1 | ⟨m, pref2, heq2, hh⟩
          · exact Or.inl h1
          · exact Or.inr ⟨m, n :: pref2, by rw [heq2, List.cons_append], hh⟩

/-- C1: the collected matching nodes are dispatched in reverse collection
order — the invocation list is the per-node invocations concatenated over a
walked prefix of `matching.reverse` (first conjunct) — and as soon as some
node's handler run reports the event handled, no handler of a node
collected earlier (outer, at larger reverse index) is invoked (second
conjunct): if the node at reverse index `i` reports handled, the node at
any reverse index `j > i` receives no invocation at all. -/
theorem bottom_up_innermost_first (hm : HandlerMap) (matching : List Nat)
    (hnd : matching.Nodup) (i j : Nat) (hj : j < matching.length)
    (hij : i < j)
    (hhi : nodeHandled hm (matching.reverse.getD i 0)) :
    (∃ pref rest, matching.reverse = pref ++ rest ∧
      (processBottomUpDispatch hm matching).2 =
        pref.flatMap (nodeInvocations hm)) ∧
    ∀ k, (matching.reverse.getD j 0, k) ∉
      (processBottomUpDispatch hm matching).2 := by
  obtain ⟨pref, rest, heq, hinv, hdrop, hlast⟩ :=
    dispatchCollected_split hm matching.reverse false
  have hlen : matching.reverse.length = matching.length :=
    List.length_reverse matching
  have hilt : i < matching.reverse.length := by omega
  have hjlt : j < matching.reverse.length := by omega
  refine ⟨⟨pref, rest, heq, hinv⟩, ?_⟩
  intro k hk
  unfold processBottomUpDispatch at hk
  rw [hinv] at hk
  obtain ⟨b, hb, hbinv⟩ := List.mem_flatMap.mp hk
  have hbj : b = matching.reverse.getD j 0 := by
    unfold nodeInvocations at hbinv
    cases hhm : hm b with
    | none => rw [hhm] at hbinv; simp at hbinv
    | some hs =>
      rw [hhm] at hbinv
      obtain ⟨k2, _, hk2⟩ := List.mem_map.mp hbinv
      have := congrArg Prod.fst hk2
      exact this
  have hplen : pref.length ≤ i + 1 := by
    by_contra hgt
    push_neg at hgt
    have hidrop : matching.reverse.getD i 0 ∈ pref.dropLast := by
      have hi1 : matching.reverse[i]? = pref[i]? := by
        rw [heq]
        exact List.getElem?_append_left (by omega)
      have hi2 : pref[i]? = some (matching.reverse.getD i 0) := by
        rw [← hi1, List.getD_eq_getElem?_getD,
          List.getElem?_eq_getElem hilt]
        rfl
      have : (pref.dropLast)[i]? = some (matching.reverse.getD i 0) := by
        rw [List.dropLast_eq_take, List.getElem?_take, if_pos (by omega), hi2]
      exact List.getElem?_mem this
    exact hdrop _ hidrop hhi
  have hjmem : matching.reverse.getD j 0 ∈ rest := by
    have hj1 : matching.reverse[j]? = rest[j - pref.length]? := by
      rw [heq]
      exact List.getElem?_append_right (by omega)
    have hj2 : matching.reverse[j]? = some (matching.reverse.getD j 0) := by
      rw [List.getD_eq_getElem?_getD, List.getElem?_eq_getElem hjlt]
      rfl
    exact List.getElem?_mem (hj1 ▸ hj2)
  have hdisj : pref.Disjoint rest := by
    have : (pref ++ rest).Nodup := by
      rw [← heq]
      exact (List.nodup_reverse).mpr hnd
    exact (List.nodup_append.mp this).2.2
  rw [hbj] at hb
  exact hdisj hb hjmem

/-- Witness for C1: matching list `[10, 20, 30]` (30 innermost); node 30's
handler does not handle, node 20's second handler does, node 10 has a
handler but is never reached: `(10, 0)` is not among the invocations. -/
theorem bottom_up_innermost_first_witness :
    ((10, 0) : Nat × Nat) ∉
      (processBottomUpDispatch
        (fun n =>
          if n = 30 then some [false]
          else if n = 20 then some [false, true]
          else if n = 10 then some [true] else none)
        [10, 20, 30]).2 :=
  (bottom_up_innermost_first
    (fun n =>
      if n = 30 then some [false]
      else if n = 20 then some [false, true]
      else if n = 10 then some [true] else none)
    [10, 20, 30] (by decide) 1 2 (by decide) (by decide)
    ⟨[false, true], by decide, by decide⟩).2 0

/-! ## Widget removal during the dirty-widget pass
(EventStateSystem::run_with_context, lines 391–475, and
EventStateSystem::remove_widget, lines 16–51) -/

/-- Modelled from the spec: `get_all_children` (the helper called at line
462, defined outside the given sources) collects every descendant of an
entity depth-first, each node before its own subtree ("recursively removes
all descendants"). `fuel` bounds the recursion; entities are created in
increasing order, so a child id exceeds its parent's — the theorems assume
this (`hlt`) together with a bound on entity ids (`hbd`). -/
def getAllChildren (children : Nat → List Nat) : Nat → Nat → List Nat
  | 0, _ => []
  | fuel+1, e =>
    (children e).flatMap (fun c => c :: getAllChildren children fuel c)

/-- Descendant relation generated by the child lists. -/
inductive Desc (children : Nat → List Nat) : Nat → Nat → Prop where
  | child {p c} : c ∈ children p → Desc children p c
  | step {p c d} : c ∈ children p → Desc children c d → Desc children p d

/-- Events observable during one dirty-widget pass. -/
inductive PassEv where
  | updated (e : Nat)
  | inited (e : Nat)
  | removed (e : Nat)
deriving DecidableEq, Repr

/-- The fixed data of a pass: the tree's child lists, the removal requests
each widget's `update` pushes through its context
(`ctx.remove_widget_list()`), the child-state keys each update registers
(`ctx.new_states_keys()`), and the recursion bound for descendant
collection. -/
structure PassCfg where
  children : Nat → List Nat
  requests : Nat → List Nat
  newKeys : Nat → List Nat
  fuel : Nat

/-- The mutable state of the pass: the accumulated `remove_widget_list`,
the set of entities holding a state object, the event log, and — as
bookkeeping for the theorems — the widgets that were actually popped and
removed as targets. -/
structure PassState where
  pending : List Nat
  states : List Nat
  log : List PassEv
  targets : List Nat
deriving DecidableEq, Repr

/-- The entities removed for one popped target, in removal order:
`get_all_children` reversed (children before their parents), then the
target itself (lines 460–471). -/
def removalBlock (cfg : PassCfg) (e : Nat) : List Nat :=
  (getAllChildren cfg.children cfg.fuel e).reverse ++ [e]

/-- Removing one popped target: `remove_widget` runs for every collected
descendant in reverse order and then for the target, each call erasing the
entity's state object. -/
def removeTarget (cfg : PassCfg) (e : Nat) (s : PassState) : PassState :=
  { s with
    states := (removalBlock cfg e).foldl (fun st x => st.erase x) s.states,
    log := s.log ++ (removalBlock cfg e).map PassEv.removed,
    targets := s.targets ++ [e] }

/-- The `for remove_widget in remove_widget_list.pop()` loop of lines
460–471: `Vec::pop` yields at most the last pending entry, so at most one
pending removal is performed per dirty-widget step. -/
def passStepPop (cfg : PassCfg) (s : PassState) : PassState :=
  match s.pending.getLast? with
  | none => s
  | some x => removeTarget cfg x { s with pending := s.pending.dropLast }

/-- One iteration of the dirty-widget loop (lines 395–475) for the widget
at the current index: a widget without a state object is skipped; otherwise
its state's `update` runs (logging `updated`, appending its removal
requests to the pending list), the newly registered child states are
initialized (`inited`), and then the pop loop runs. -/
def passStep (cfg : PassCfg) (s : PassState) (w : Nat) : PassState :=
  if w ∈ s.states then
    passStepPop cfg
      { s with
        log := s.log ++ PassEv.updated w :: (cfg.newKeys w).map PassEv.inited,
        pending := s.pending ++ cfg.requests w }
  else s

/-- A whole dirty-widget pass: the dirty list is walked by index. -/
def runPass (cfg : PassCfg) (dirty : List Nat) (states0 : List Nat) :
    PassState :=
  dirty.foldl (passStep cfg) ⟨[], states0, [], []⟩

/-- The claim's reading of deferred removal: in the log of a pass, no
`removed` event precedes any `updated` event — every removal happens only
after the dirty-widget pass's updates are over. -/
def removalsAfterAllUpdates (log : List PassEv) : Prop :=
  ∀ l1 e l2, log = l1 ++ PassEv.removed e :: l2 →
    ∀ w, PassEv.updated w ∉ l2

/-- Concrete configuration for the C2 counterexample: widget 1's update
requests removal of widget 3 (a leaf); widget 2 is also dirty. -/
def cfgC2 : PassCfg :=
  ⟨fun _ => [], fun w => if w = 1 then [3] else [], fun _ => [], 5⟩

/-- C2 counterexample: with dirty list `[1, 2]`, widget 1's update requests
removal of widget 3, and widget 3 is removed immediately after widget 1's
update — before widget 2's update runs, hence before the dirty-widget pass
completes. The claimed "no removal until the pass completes" fails. -/
theorem deferred_removal_counterexample :
    (runPass cfgC2 [1, 2] [1, 2, 3]).log =
      [PassEv.updated 1, PassEv.removed 3, PassEv.updated 2] ∧
    ¬ removalsAfterAllUpdates (runPass cfgC2 [1, 2] [1, 2, 3]).log := by
  have hlog : (runPass cfgC2 [1, 2] [1, 2, 3]).log =
      [PassEv.updated 1, PassEv.removed 3, PassEv.updated 2] := by decide
  refine ⟨hlog, fun h => ?_⟩
  have h2 := h [PassEv.updated 1] 3 [PassEv.updated 2] (by rw [hlog]; rfl) 2
  exact h2 (List.mem_cons_self _ _)

lemma desc_lt {children : Nat → List Nat}
    (hlt : ∀ p c, c ∈ children p → p < c) {p d : Nat}
    (h : Desc children p d) : p < d := by
  induction h with
  | child hc => exact hlt _ _ hc
  | step hc _ ih => exact lt_trans (hlt _ _ hc) ih

lemma desc_is_child {children : Nat → List Nat} {p d : Nat}
    (h : Desc children p d) : ∃ q, d ∈ children q := by
  induction h with
  | child hc => exact ⟨_, hc⟩
  | step _ _ ih => exact ih

lemma mem_getAllChildren_of_desc {children : Nat → List Nat}
    (hlt : ∀ p c, c ∈ children p → p < c) {e d : Nat}
    (h : Desc children e d) :
    ∀ fuel, d - e ≤ fuel → d ∈ getAllChildren children fuel e := by
  induction h with
  | child hc =>
    intro fuel hf
    rename_i p c
    have hpc : p < c := hlt _ _ hc
    cases fuel with
    | zero => omega
    | succ f =>
      unfold getAllChildren
      exact List.mem_flatMap.mpr ⟨c, hc, List.mem_cons_self _ _⟩
  | step hc hdesc ih =>
    intro fuel hf
    rename_i p c d
    have hpc : p < c := hlt _ _ hc
    have hcd : c < d := desc_lt hlt hdesc
    cases fuel with
    | zero => omega
    | succ f =>
      unfold getAllChildren
      refine List.mem_flatMap.mpr ⟨c, hc, List.mem_cons_of_mem _ ?_⟩
      exact ih f (by omega)

lemma getAllChildren_child_split {children : Nat → List Nat}
    (hlt : ∀ p c, c ∈ children p → p < c) :
    ∀ (fuel e a b : Nat), a ∈ getAllChildren children fuel e →
      b ∈ children a → b - e ≤ fuel →
      ∃ n1 n2, getAllChildren children fuel e = n1 ++ n2 ∧
        a ∈ n1 ∧ b ∈ n2 := by
  intro fuel
  induction fuel with
  | zero =>
    intro e a b ha _ _
    exact absurd ha (by simp [getAllChildren])
  | succ f ih =>
    intro e a b ha hb hfb
    have hab : a < b := hlt _ _ hb
    unfold getAllChildren at ha ⊢
    obtain ⟨c, hc, hac⟩ := List.mem_flatMap.mp ha
    obtain ⟨l1, l2, hl⟩ := List.append_of_mem hc
    have hec : e < c := hlt _ _ hc
    have hsplit : (children e).flatMap
        (fun c => c :: getAllChildren children f c) =
        l1.flatMap (fun c => c :: getAllChildren children f c) ++
          (c :: getAllChildren children f c) ++
          l2.flatMap (fun c => c :: getAllChildren children f c) := by
      rw [hl, List.flatMap_append, List.flatMap_cons, ← List.append_assoc]
    rcases List.mem_cons.mp hac with hceq | hatail
    · subst hceq
      have hbmem : b ∈ getAllChildren children f a :=
        mem_getAllChildren_of_desc hlt (Desc.child hb) f (by omega)
      refine ⟨l1.flatMap (fun c => c :: getAllChildren children f c) ++ [a],
        getAllChildren children f a ++
          l2.flatMap (fun c => c :: getAllChildren children f c),
        ?_, ?_, ?_⟩
      · rw [hsplit]
        simp [List.append_assoc]
      · exact List.mem_append_right _ (List.mem_singleton.mpr rfl)
      · exact List.mem_append_left _ hbmem
    · obtain ⟨n1, n2, hn, han, hbn⟩ := ih c a b hatail hb (by omega)
      refine ⟨l1.flatMap (fun c => c :: getAllChildren children f c) ++
          c :: n1,
        n2 ++ l2.flatMap (fun c => c :: getAllChildren children f c),
        ?_, ?_, ?_⟩
      · rw [hsplit, hn]
        simp [List.append_assoc]
      · exact List.mem_append_right _ (List.mem_cons_of_mem _ han)
      · exact List.mem_append_left _ hbn

/-- Every pending removal request was made by a widget whose update has
already been logged. -/
def PendingInvL (cfg : PassCfg) (pending : List Nat) (log : List PassEv) :
    Prop :=
  ∀ x ∈ pending, ∃ r, PassEv.updated r ∈ log ∧ x ∈ cfg.requests r

/-- Every removed target's removal block sits contiguously in the log,
after the update of some widget that requested it. -/
def TargetsOkL (cfg : PassCfg) (targets : List Nat) (log : List PassEv) :
    Prop :=
  ∀ X ∈ targets, ∃ pre post r,
    log = pre ++ (removalBlock cfg X).map PassEv.removed ++ post ∧
    PassEv.updated r ∈ pre ∧ X ∈ cfg.requests r

lemma pendingInvL_append {cfg : PassCfg} {pending : List Nat}
    {log : List PassEv} (h : PendingInvL cfg pending log)
    (ext : List PassEv) : PendingInvL cfg pending (log ++ ext) := by
  intro x hx
  obtain ⟨r, hr, hreq⟩ := h x hx
  exact ⟨r, List.mem_append_left _ hr, hreq⟩

lemma targetsOkL_append {cfg : PassCfg} {targets : List Nat}
    {log : List PassEv} (h : TargetsOkL cfg targets log)
    (ext : List PassEv) : TargetsOkL cfg targets (log ++ ext) := by
  intro X hX
  obtain ⟨pre, post, r, hlog, hpre, hreq⟩ := h X hX
  refine ⟨pre, post ++ ext, r, ?_, hpre, hreq⟩
  rw [hlog]
  simp [List.append_assoc]

lemma passStepPop_preserves (cfg : PassCfg) (s : PassState)
    (h1 : PendingInvL cfg s.pending s.log)
    (h2 : TargetsOkL cfg s.targets s.log) :
    PendingInvL cfg (passStepPop cfg s).pending (passStepPop cfg s).log ∧
    TargetsOkL cfg (passStepPop cfg s).targets (passStepPop cfg s).log := by
  unfold passStepPop
  cases hlast : s.pending.getLast? with
  | none => exact ⟨h1, h2⟩
  | some x =>
    constructor
    · intro y hy
      have hy2 : y ∈ s.pending := List.dropLast_subset _ hy
      obtain ⟨r, hr, hreq⟩ := h1 y hy2
      exact ⟨r, List.mem_append_left _ hr, hreq⟩
    · intro X hX
      unfold removeTarget at hX
      rcases List.mem_append.mp hX with hold | hnew
      · exact targetsOkL_append h2 _ X hold
      · have hXx : X = x := List.mem_singleton.mp hnew
        subst hXx
        have hxp : X ∈ s.pending :=
          List.mem_of_mem_getLast? (Option.mem_def.mpr hlast)
        obtain ⟨r, hr, hreq⟩ := h1 X hxp
        refine ⟨s.log, [], r, ?_, hr, hreq⟩
        simp [removeTarget]

lemma passStep_preserves (cfg : PassCfg) (s : PassState) (w : Nat)
    (h1 : PendingInvL cfg s.pending s.log)
    (h2 : TargetsOkL cfg s.targets s.log) :
    PendingInvL cfg (passStep cfg s w).pending (passStep cfg s w).log ∧
    TargetsOkL cfg (passStep cfg s w).targets (passStep cfg s w).log := by
  unfold passStep
  by_cases hw : w ∈ s.states
  · rw [if_pos hw]
    apply passStepPop_preserves
    · intro x hx
      rcases List.mem_append.mp hx with hx1 | hx2
      · obtain ⟨r, hr, hreq⟩ := h1 x hx1
        exact ⟨r, List.mem_append_left _ hr, hreq⟩
      · exact ⟨w, List.mem_append_right _ (List.mem_cons_self _ _), hx2⟩
    · exact targetsOkL_append h2 _
  · rw [if_neg hw]
    exact ⟨h1, h2⟩

lemma runPass_aux (cfg : PassCfg) :
    ∀ (dirty : List Nat) (s : PassState),
      PendingInvL cfg s.pending s.log → TargetsOkL cfg s.targets s.log →
      PendingInvL cfg (dirty.foldl (passStep cfg) s).pending
          (dirty.foldl (passStep cfg) s).log ∧
        TargetsOkL cfg (dirty.foldl (passStep cfg) s).targets
          (dirty.foldl (passStep cfg) s).log := by
  intro dirty
  induction dirty with
  | nil => intro s h1 h2; exact ⟨h1, h2⟩
  | cons w rest ih =>
    intro s h1 h2
    obtain ⟨h1s, h2s⟩ := passStep_preserves cfg s w h1 h2
    exact ih (passStep cfg s w) h1s h2s

/-- C2 (amended): a widget whose removal is requested during a state's
update is not removed during that update; its removal — when it is the
pending request popped at the end of a dirty-widget step — happens right
after the requesting pass step's update (and child-state inits), not after
the whole dirty pass, and the log then shows one contiguous removal block:
all of the target's descendants in reverse depth-first order (children
before their parents) followed by the target itself, preceded somewhere by
the `updated` event of a widget that requested this removal. -/
theorem deferred_removal_amended (cfg : PassCfg) (dirty states0 : List Nat)
    (hlt : ∀ p c, c ∈ cfg.children p → p < c)
    (hbd : ∀ p c, c ∈ cfg.children p → c < cfg.fuel)
    (X : Nat) (hX : X ∈ (runPass cfg dirty states0).targets) :
    ∃ pre post r,
      (runPass cfg dirty states0).log =
        pre ++ (removalBlock cfg X).map PassEv.removed ++ post ∧
      PassEv.updated r ∈ pre ∧ X ∈ cfg.requests r ∧
      (∀ d, Desc cfg.children X d →
        d ∈ getAllChildren cfg.children cfg.fuel X) ∧
      (∀ a b, a ∈ getAllChildren cfg.children cfg.fuel X →
        b ∈ cfg.children a →
        ∃ m1 m2,
          (getAllChildren cfg.children cfg.fuel X).reverse = m1 ++ m2 ∧
          b ∈ m1 ∧ a ∈ m2) := by
  have haux := runPass_aux cfg dirty ⟨[], states0, [], []⟩
    (by intro x hx; simp at hx) (by intro Y hY; simp at hY)
  obtain ⟨pre, post, r, hlog, hpre, hreq⟩ := haux.2 X hX
  refine ⟨pre, post, r, hlog, hpre, hreq, ?_, ?_⟩
  · intro d hd
    obtain ⟨q, hq⟩ := desc_is_child hd
    have hdlt : d < cfg.fuel := hbd _ _ hq
    exact mem_getAllChildren_of_desc hlt hd cfg.fuel (by omega)
  · intro a b ha hb
    have hblt : b < cfg.fuel := hbd _ _ hb
    obtain ⟨n1, n2, hn, han, hbn⟩ :=
      getAllChildren_child_split hlt cfg.fuel X a b ha hb (by omega)
    refine ⟨n2.reverse, n1.reverse, ?_, ?_, ?_⟩
    · rw [hn, List.reverse_append]
    · exact List.mem_reverse.mpr hbn
    · exact List.mem_reverse.mpr han

/-- Concrete configuration for the C2 witness: widget 3 has child 4;
widget 1's update requests removal of widget 3. -/
def cfgC2W : PassCfg :=
  ⟨fun p => if p = 3 then [4] else [],
   fun w => if w = 1 then [3] else [], fun _ => [], 6⟩

/-- Witness for C2 (amended) on `cfgC2W` with dirty list `[1, 2]`: widget 3
is removed as a popped target, its child 4 removed before it, after
widget 1's update. -/
theorem deferred_removal_amended_witness :
    ∃ pre post r,
      (runPass cfgC2W [1, 2] [1, 2]).log =
        pre ++ (removalBlock cfgC2W 3).map PassEv.removed ++ post ∧
      PassEv.updated r ∈ pre ∧ 3 ∈ cfgC2W.requests r ∧
      (∀ d, Desc cfgC2W.children 3 d →
        d ∈ getAllChildren cfgC2W.children cfgC2W.fuel 3) ∧
      (∀ a b, a ∈ getAllChildren cfgC2W.children cfgC2W.fuel 3 →
        b ∈ cfgC2W.children a →
        ∃ m1 m2,
          (getAllChildren cfgC2W.children cfgC2W.fuel 3).reverse =
            m1 ++ m2 ∧ b ∈ m1 ∧ a ∈ m2) := by
  apply deferred_removal_amended cfgC2W [1, 2] [1, 2]
  · intro p c h
    by_cases hp : p = 3
    · subst hp
      simp only [cfgC2W, reduceIte] at h
      have hc : c = 4 := List.mem_singleton.mp h
      subst hc
      decide
    · simp [cfgC2W, hp] at h
  · intro p c h
    by_cases hp : p = 3
    · subst hp
      simp only [cfgC2W, reduceIte] at h
      have hc : c = 4 := List.mem_singleton.mp h
      subst hc
      decide
    · simp [cfgC2W, hp] at h
  · decide

/-! ## Text-selection layout (crates/api/src/layout/text_selection.rs)

The `f64` geometry is embedded over `Int` (exact arithmetic; the code under
study uses only addition, subtraction, negation and comparisons), the
render-measurement service as an opaque function from UTF-16 unit lists to
widths, and `v_align.align_measure` as an opaque function of the four
arguments the code passes. -/

/-- The `Visibility` component. -/
inductive Visibility where
  | visible
  | hidden
  | collapsed
deriving DecidableEq, Repr

/-- Modelled from the spec: `DirtySize` (defined outside the given sources)
is a cached (width, height) pair plus a dirty flag; its setters update the
respective fields. -/
structure DirtySize where
  width : Int
  height : Int
  dirty : Bool
deriving DecidableEq, Repr

def DirtySize.setSize (d : DirtySize) (w h : Int) : DirtySize :=
  { d with width := w, height := h }

def DirtySize.setWidth (d : DirtySize) (w : Int) : DirtySize :=
  { d with width := w }

def DirtySize.setHeight (d : DirtySize) (h : Int) : DirtySize :=
  { d with height := h }

def DirtySize.setDirty (d : DirtySize) (b : Bool) : DirtySize :=
  { d with dirty := b }

/-- The component store as consulted by the text-selection layout: one
field per (component key, entity) access the code performs. Components the
code reads through panicking getters (`component`, `.unwrap()`) are total;
components read through `try_component`/`component_try_mut` are `Option`s
or carry a presence flag (`hasMargin`, `hasBounds`). The text value is the
UTF-16 unit list of the `String16`. -/
structure TsEcm where
  visibility : Nat → Visibility
  constraintWidth : Nat → Int
  constraintHeight : Nat → Int
  textSelection : Nat → Option TextSelection
  textBlock : Nat → Nat
  marginLeft : Nat → Int
  marginTop : Nat → Int
  marginBottom : Nat → Int
  hasMargin : Nat → Bool
  text : Nat → Option (List Nat)
  expanded : Nat → Bool
  boundsWidth : Nat → Int
  boundsHeight : Nat → Int
  hasBounds : Nat → Bool
  parent : Nat → Option Nat
  children : Nat → List Nat

def TsEcm.setMarginLeft (ecm : TsEcm) (e : Nat) (v : Int) : TsEcm :=
  { ecm with marginLeft := fun x => if x = e then v else ecm.marginLeft x }

def TsEcm.setBounds (ecm : TsEcm) (e : Nat) (w h : Int) : TsEcm :=
  { ecm with
    boundsWidth := fun x => if x = e then w else ecm.boundsWidth x,
    boundsHeight := fun x => if x = e then h else ecm.boundsHeight x }

/-- Modelled from the spec: `String16::get_string(start, end)` (defined
outside the given sources) returns the sub-range of UTF-16 units when it is
within bounds and nothing otherwise. -/
def getString16 (t : List Nat) (s e : Nat) : Option (List Nat) :=
  if s ≤ e ∧ e ≤ t.length then some ((t.drop s).take (e - s)) else none

/-- The layout's own state: the `desired_size` cell and the previously seen
selection (`old_text_selection`). -/
structure TSLState where
  desired : DirtySize
  oldSelection : TextSelection
deriving DecidableEq, Repr

/-- One children loop of `TextSelectionLayout::measure` (run twice by the
code): children present in the layouts registry are measured and their
dirty flags OR-ed into the accumulated desired size; absent children are
skipped. `childDirty c` is the dirty flag of child `c`'s measured size,
`none` when `c` has no registered layout. Returns the updated desired size
and the children measured, in order. -/
def tslChildPass (childDirty : Nat → Option Bool) :
    List Nat → DirtySize → DirtySize × List Nat
  | [], d => (d, [])
  | c :: cs, d =>
    match childDirty c with
    | none => tslChildPass childDirty cs d
    | some cd =>
      let d2 := d.setDirty (cd || d.dirty)
      let r := tslChildPass childDirty cs d2
      (r.1, c :: r.2)

/-- `TextSelectionLayout::measure`: a collapsed entity gets size (0,0) at
once, with no recursion into children; otherwise the selection-change dirty
check runs, children are measured, positive constraint width/height
override the size, and children are measured a second time. Returns the new
layout state, the returned `DirtySize`, and every child measured. -/
def tslMeasure (st : TSLState) (ecm : TsEcm) (childDirty : Nat → Option Bool)
    (e : Nat) : TSLState × DirtySize × List Nat :=
  if ecm.visibility e = Visibility.collapsed then
    ({ st with desired := st.desired.setSize 0 0 }, st.desired.setSize 0 0, [])
  else
    let st1 : TSLState :=
      match ecm.textSelection e with
      | some sel =>
        { desired :=
            if sel ≠ st.oldSelection then st.desired.setDirty true
            else st.desired,
          oldSelection := sel }
      | none => st
    let p1 := tslChildPass childDirty (ecm.children e) st1.desired
    let d2 :=
      if ecm.constraintWidth e > 0 then p1.1.setWidth (ecm.constraintWidth e)
      else p1.1
    let d3 :=
      if ecm.constraintHeight e > 0 then
        d2.setHeight (ecm.constraintHeight e)
      else d2
    let p2 := tslChildPass childDirty (ecm.children e) d3
    ({ st1 with desired := p2.1 }, p2.1, p1.2 ++ p2.2)

/-- The text length the arrange pass sees: the length of the text block's
text, 0 when the text component is absent. -/
def tslTextLen (ecm : TsEcm) (tb : Nat) : Nat :=
  match ecm.text tb with
  | some t => t.length
  | none => 0

/-- The selection start the arrange pass sees: read only when both the text
and the selection components exist, 0 otherwise. -/
def tslSelStart (ecm : TsEcm) (e tb : Nat) : Nat :=
  match ecm.text tb with
  | some _ =>
    match ecm.textSelection e with
    | some s => s.start_index
    | none => 0
  | none => 0

/-- The caret x-offset `pos` computed by arrange: the measured width of the
text before the selection start, 0 when any ingredient is missing. -/
def tslCaretPos (ecm : TsEcm) (measureFn : List Nat → Int) (e tb : Nat) :
    Int :=
  match ecm.text tb with
  | some t =>
    match ecm.textSelection e with
    | some s =>
      match getString16 t 0 s.start_index with
      | some part => measureFn part
      | none => 0
    | none => 0
  | none => 0

/-- The width `size.0` computed by arrange: the measured width of the
selected sub-range when the selection length is positive, the constraint
width when it is zero, and the incoming desired width when the text or
selection component is missing (or the sub-range is out of bounds). -/
def tslSelWidth (ecm : TsEcm) (measureFn : List Nat → Int) (e tb : Nat)
    (desiredW width : Int) : Int :=
  match ecm.text tb with
  | some t =>
    match ecm.textSelection e with
    | some s =>
      if s.length > 0 then
        match getString16 t s.start_index (s.start_index + s.length) with
        | some part => measureFn part
        | none => desiredW
      else width
    | none => desiredW
  | none => desiredW

/-- Side effects of arrange that do not change the modelled component
fields: arranging a child through its registered layout and
`mark_as_dirty`. -/
inductive ArrangeEv where
  | childArranged (c : Nat)
  | markedDirty (e : Nat)
deriving DecidableEq, Repr

/-- The result of one arrange call: the updated component store, the
layout state, the returned size, the side-effect log, and whether the
caret-window adjustment wrote the text block's left margin. -/
structure ArrangeOut where
  ecm : TsEcm
  st : TSLState
  size : Int × Int
  events : List ArrangeEv
  adjusted : Bool

/-- The caret-window adjustment of arrange (lines 175–194): only for a
non-expanded cursor with positive selection start, and only when the caret
offset overflows the viewport, the overflow delta is subtracted from `pos`;
the text block's left margin is written to `-delta` only when the text is
nonempty (and the margin component exists). Returns the store, the new
`pos`, and whether the margin write happened. -/
def tslAdjust (ecm1 : TsEcm) (tb : Nat) (expanded : Bool)
    (selStart textLen : Nat) (pos0 sw vw : Int) : TsEcm × Int × Bool :=
  if expanded = false ∧ 0 < selStart then
    if pos0 < 0 ∨ pos0 + sw > vw then
      let delta := if pos0 < 0 then pos0 else pos0 - vw + sw
      if 0 < textLen then
        (if ecm1.hasMargin tb then
          (ecm1.setMarginLeft tb (-delta), pos0 - delta, true)
         else (ecm1, pos0 - delta, false))
      else (ecm1, pos0 - delta, false)
    else (ecm1, pos0, false)
  else (ecm1, pos0, false)

/-- The entity's own margin write (line 195) followed by the bounds write
(lines 199–202) of arrange, both through `component_try_mut`. -/
def tslFinishEcm (adjEcm : TsEcm) (e : Nat) (pos1 sw sizeH : Int) : TsEcm :=
  let ecm3 := if adjEcm.hasMargin e then adjEcm.setMarginLeft e pos1
    else adjEcm
  if ecm3.hasBounds e then ecm3.setBounds e sw sizeH else ecm3

/-- The non-collapsed body of `TextSelectionLayout::arrange` for an entity
whose parent exists: vertical alignment, caret position and selection
width, the reset of the text block's margin (line 169), the caret-window
adjustment, the entity's own margin and bounds writes, `mark_as_dirty`, and
the children loop (child layouts abstracted as logged events). -/
def tslArrangeCore (st : TSLState) (ecm : TsEcm)
    (measureFn : List Nat → Int) (align : Int → Int → Int → Int → Int)
    (childHasLayout : Nat → Bool) (parentSize : Int × Int) (e parent : Nat) :
    ArrangeOut :=
  let tb := ecm.textBlock e
  let width := ecm.constraintWidth e
  let sizeH := align parentSize.2 st.desired.height (ecm.marginTop e)
    (ecm.marginBottom e)
  let pos0 := tslCaretPos ecm measureFn e tb
  let sw := tslSelWidth ecm measureFn e tb st.desired.width width
  let textLen := tslTextLen ecm tb
  let selStart := tslSelStart ecm e tb
  let expanded := ecm.expanded e
  let vw := ecm.boundsWidth parent
  let ecm1 :=
    if expanded = false ∨ textLen = 0 ∨ (expanded = false ∧ selStart = 0)
    then (if ecm.hasMargin tb then ecm.setMarginLeft tb 0 else ecm)
    else ecm
  let adj := tslAdjust ecm1 tb expanded selStart textLen pos0 sw vw
  ⟨tslFinishEcm adj.1 e adj.2.1 sw sizeH,
   { st with desired := st.desired.setDirty false },
   (sw, sizeH),
   ArrangeEv.markedDirty e ::
     ((ecm.children e).filter childHasLayout).map ArrangeEv.childArranged,
   adj.2.2⟩

/-- `TextSelectionLayout::arrange`: a collapsed entity yields size (0,0) at
once, with no component writes, no dirty marks and no child arranged; a
missing parent is the fatal `expect` (modelled as `none`); otherwise the
core body runs. -/
def tslArrange (st : TSLState) (ecm : TsEcm) (measureFn : List Nat → Int)
    (align : Int → Int → Int → Int → Int) (childHasLayout : Nat → Bool)
    (parentSize : Int × Int) (e : Nat) : Option ArrangeOut :=
  if ecm.visibility e = Visibility.collapsed then
    some ⟨ecm, { st with desired := st.desired.setSize 0 0 }, (0, 0), [],
      false⟩
  else
    match ecm.parent e with
    | none => none
    | some parent =>
      some (tslArrangeCore st ecm measureFn align childHasLayout parentSize
        e parent)

/-- C8: for a collapsed entity, measure returns exactly size (0,0) and
recurses into no child, and arrange returns (0,0) leaving the component
store untouched, with no bounds or margin write and no dirty mark on any
child (empty side-effect log). -/
theorem collapsed_zero_size (st : TSLState) (ecm : TsEcm)
    (childDirty : Nat → Option Bool) (measureFn : List Nat → Int)
    (align : Int → Int → Int → Int → Int) (childHasLayout : Nat → Bool)
    (parentSize : Int × Int) (e : Nat)
    (h : ecm.visibility e = Visibility.collapsed) :
    (tslMeasure st ecm childDirty e).2.1.width = 0 ∧
    (tslMeasure st ecm childDirty e).2.1.height = 0 ∧
    (tslMeasure st ecm childDirty e).2.2 = [] ∧
    tslArrange st ecm measureFn align childHasLayout parentSize e =
      some ⟨ecm, { st with desired := st.desired.setSize 0 0 }, (0, 0), [],
        false⟩ := by
  unfold tslMeasure tslArrange
  rw [if_pos h, if_pos h]
  exact ⟨rfl, rfl, rfl, rfl⟩

/-- Concrete component store for the C8 witness: entity 1 is collapsed and
has a child. -/
def ecmC8 : TsEcm :=
  { visibility := fun _ => Visibility.collapsed
    constraintWidth := fun _ => 5
    constraintHeight := fun _ => 5
    textSelection := fun _ => none
    textBlock := fun _ => 2
    marginLeft := fun _ => 0
    marginTop := fun _ => 0
    marginBottom := fun _ => 0
    hasMargin := fun _ => true
    text := fun _ => none
    expanded := fun _ => false
    boundsWidth := fun _ => 9
    boundsHeight := fun _ => 9
    hasBounds := fun _ => true
    parent := fun _ => some 0
    children := fun _ => [7] }

/-- Witness for C8 on `ecmC8`: the collapsed entity 1 measures to (0,0)
visiting no child, and arranges to (0,0) with an untouched store and empty
side-effect log. -/
theorem collapsed_zero_size_witness :
    (tslMeasure ⟨⟨4, 4, true⟩, ⟨0, 0⟩⟩ ecmC8 (fun _ => some true) 1).2.1.width
        = 0 ∧
    (tslMeasure ⟨⟨4, 4, true⟩, ⟨0, 0⟩⟩ ecmC8 (fun _ => some true) 1).2.1.height
        = 0 ∧
    (tslMeasure ⟨⟨4, 4, true⟩, ⟨0, 0⟩⟩ ecmC8 (fun _ => some true) 1).2.2
        = [] ∧
    tslArrange ⟨⟨4, 4, true⟩, ⟨0, 0⟩⟩ ecmC8 (fun t => (t.length : Int))
        (fun _ b _ _ => b) (fun _ => true) (10, 10) 1 =
      some ⟨ecmC8, ⟨DirtySize.setSize ⟨4, 4, true⟩ 0 0, ⟨0, 0⟩⟩,
        (0, 0), [], false⟩ :=
  collapsed_zero_size ⟨⟨4, 4, true⟩, ⟨0, 0⟩⟩ ecmC8 (fun _ => some true)
    (fun t => (t.length : Int)) (fun _ b _ _ => b) (fun _ => true) (10, 10) 1
    (by decide)

lemma setMarginLeft_hasMargin (ecm : TsEcm) (x : Nat) (v : Int) :
    (ecm.setMarginLeft x v).hasMargin = ecm.hasMargin := rfl

lemma setBounds_marginLeft (ecm : TsEcm) (x : Nat) (w h : Int) :
    (ecm.setBounds x w h).marginLeft = ecm.marginLeft := rfl

lemma setMarginLeft_marginLeft_ne (ecm : TsEcm) (x : Nat) (v : Int)
    (y : Nat) (h : y ≠ x) :
    (ecm.setMarginLeft x v).marginLeft y = ecm.marginLeft y := by
  simp [TsEcm.setMarginLeft, h]

lemma tslFinishEcm_marginLeft_ne (adjEcm : TsEcm) (e : Nat)
    (pos1 sw sizeH : Int) (y : Nat) (h : y ≠ e) :
    (tslFinishEcm adjEcm e pos1 sw sizeH).marginLeft y =
      adjEcm.marginLeft y := by
  unfold tslFinishEcm
  dsimp only
  by_cases h1 : adjEcm.hasMargin e = true
  · rw [if_pos h1]
    by_cases h2 : (adjEcm.setMarginLeft e pos1).hasBounds e = true
    · rw [if_pos h2, setBounds_marginLeft,
        setMarginLeft_marginLeft_ne _ _ _ _ h]
    · rw [if_neg h2, setMarginLeft_marginLeft_ne _ _ _ _ h]
  · rw [if_neg h1]
    by_cases h2 : adjEcm.hasBounds e = true
    · rw [if_pos h2, setBounds_marginLeft]
    · rw [if_neg h2]

lemma tslAdjust_not_adjusted (ecm1 : TsEcm) (tb : Nat) (expanded : Bool)
    (selStart textLen : Nat) (pos0 sw vw : Int)
    (h : ¬ (expanded = false ∧ 0 < selStart ∧ 0 < textLen)) :
    (tslAdjust ecm1 tb expanded selStart textLen pos0 sw vw).2.2 = false := by
  unfold tslAdjust
  by_cases h1 : expanded = false ∧ 0 < selStart
  · rw [if_pos h1]
    by_cases h2 : pos0 < 0 ∨ pos0 + sw > vw
    · rw [if_pos h2]
      have h3 : ¬ 0 < textLen := fun hc => h ⟨h1.1, h1.2, hc⟩
      rw [if_neg h3]
    · rw [if_neg h2]
  · rw [if_neg h1]

lemma tslAdjust_adjusted (ecm1 : TsEcm) (tb : Nat) (expanded : Bool)
    (selStart textLen : Nat) (pos0 sw vw : Int)
    (hover : pos0 < 0 ∨ pos0 + sw > vw)
    (hm : ecm1.hasMargin tb = true)
    (hexp : expanded = false) (hss : 0 < selStart) (htl : 0 < textLen) :
    (tslAdjust ecm1 tb expanded selStart textLen pos0 sw vw).2.2 = true ∧
    (tslAdjust ecm1 tb expanded selStart textLen pos0 sw vw).1.marginLeft tb
      = -(if pos0 < 0 then pos0 else pos0 - vw + sw) ∧
    (tslAdjust ecm1 tb expanded selStart textLen pos0 sw vw).2.1
      = pos0 - (if pos0 < 0 then pos0 else pos0 - vw + sw) := by
  unfold tslAdjust
  rw [if_pos ⟨hexp, hss⟩, if_pos hover, if_pos htl, if_pos hm]
  refine ⟨rfl, ?_, rfl⟩
  simp [TsEcm.setMarginLeft]

/-- C9: for a visible text-selection cursor whose parent exists and whose
text block carries a margin component, when the computed caret offset
overflows the viewport (negative, or offset plus width beyond the parent's
bounds width), the caret-window adjustment is performed if and only if none
of the three skip conditions holds — the cursor is expanded, the text is
empty, or the caret sits at index 0 — and when performed it sets the text
block's left margin to minus the overflow delta. -/
theorem caret_window_adjustment (st : TSLState) (ecm : TsEcm)
    (measureFn : List Nat → Int) (align : Int → Int → Int → Int → Int)
    (childHasLayout : Nat → Bool) (parentSize : Int × Int) (e p : Nat)
    (hvis : ecm.visibility e ≠ Visibility.collapsed)
    (hpar : ecm.parent e = some p)
    (hmar : ecm.hasMargin (ecm.textBlock e) = true)
    (htb : ecm.textBlock e ≠ e)
    (hover : tslCaretPos ecm measureFn e (ecm.textBlock e) < 0 ∨
      tslCaretPos ecm measureFn e (ecm.textBlock e) +
        tslSelWidth ecm measureFn e (ecm.textBlock e) st.desired.width
          (ecm.constraintWidth e) > ecm.boundsWidth p) :
    ((tslArrange st ecm measureFn align childHasLayout parentSize e).map
        ArrangeOut.adjusted = some true ↔
      (ecm.expanded e = false ∧ tslTextLen ecm (ecm.textBlock e) ≠ 0 ∧
        tslSelStart ecm e (ecm.textBlock e) ≠ 0)) ∧
    ((ecm.expanded e = false ∧ tslTextLen ecm (ecm.textBlock e) ≠ 0 ∧
        tslSelStart ecm e (ecm.textBlock e) ≠ 0) →
      (tslArrange st ecm measureFn align childHasLayout parentSize e).map
          (fun o => o.ecm.marginLeft (ecm.textBlock e)) =
        some (-(if tslCaretPos ecm measureFn e (ecm.textBlock e) < 0 then
            tslCaretPos ecm measureFn e (ecm.textBlock e)
          else
            tslCaretPos ecm measureFn e (ecm.textBlock e) -
              ecm.boundsWidth p +
              tslSelWidth ecm measureFn e (ecm.textBlock e) st.desired.width
                (ecm.constraintWidth e)))) := by
  have harr : tslArrange st ecm measureFn align childHasLayout parentSize e =
      some (tslArrangeCore st ecm measureFn align childHasLayout parentSize
        e p) := by
    unfold tslArrange
    rw [if_neg hvis, hpar]
  set tb := ecm.textBlock e with htbdef
  set pos0 := tslCaretPos ecm measureFn e tb with hp0
  set sw := tslSelWidth ecm measureFn e tb st.desired.width
    (ecm.constraintWidth e) with hsw
  set textLen := tslTextLen ecm tb with htl
  set selStart := tslSelStart ecm e tb with hss
  set expanded := ecm.expanded e with hex
  set vw := ecm.boundsWidth p with hvw
  set ecm1 :=
    (if expanded = false ∨ textLen = 0 ∨ (expanded = false ∧ selStart = 0)
     then (if ecm.hasMargin tb then ecm.setMarginLeft tb 0 else ecm)
     else ecm) with hecm1
  have hecm1m : ecm1.hasMargin tb = true := by
    rw [hecm1]
    by_cases hc : expanded = false ∨ textLen = 0 ∨
        (expanded = false ∧ selStart = 0)
    · rw [if_pos hc, if_pos hmar, setMarginLeft_hasMargin]
      exact hmar
    · rw [if_neg hc]
      exact hmar
  have hcore_adj :
      (tslArrangeCore st ecm measureFn align childHasLayout parentSize
        e p).adjusted =
      (tslAdjust ecm1 tb expanded selStart textLen pos0 sw vw).2.2 := rfl
  have hcore_ecm :
      (tslArrangeCore st ecm measureFn align childHasLayout parentSize
        e p).ecm =
      tslFinishEcm
        (tslAdjust ecm1 tb expanded selStart textLen pos0 sw vw).1 e
        (tslAdjust ecm1 tb expanded selStart textLen pos0 sw vw).2.1 sw
        (align parentSize.2 st.desired.height (ecm.marginTop e)
          (ecm.marginBottom e)) := rfl
  have hcore_ml :
      (tslArrangeCore st ecm measureFn align childHasLayout parentSize
        e p).ecm.marginLeft tb =
      (tslAdjust ecm1 tb expanded selStart textLen pos0 sw vw).1.marginLeft
        tb := by
    rw [hcore_ecm, tslFinishEcm_marginLeft_ne _ _ _ _ _ _ htb]
  constructor
  · rw [harr, Option.map_some', hcore_adj]
    constructor
    · intro hadj
      by_contra hcon
      have : ¬ (expanded = false ∧ 0 < selStart ∧ 0 < textLen) := by
        intro ⟨a, b, c⟩
        exact hcon ⟨a, by omega, by omega⟩
      rw [tslAdjust_not_adjusted ecm1 tb expanded selStart textLen pos0 sw vw
        this] at hadj
      exact Bool.false_ne_true (Option.some.inj hadj)
    · rintro ⟨hexp, htl0, hss0⟩
      have := (tslAdjust_adjusted ecm1 tb expanded selStart textLen pos0 sw
        vw hover hecm1m hexp (by omega) (by omega)).1
      rw [this]
  · rintro ⟨hexp, htl0, hss0⟩
    rw [harr, Option.map_some']
    have := (tslAdjust_adjusted ecm1 tb expanded selStart textLen pos0 sw vw
      hover hecm1m hexp (by omega) (by omega)).2.1
    rw [hcore_ml, this]

/-- Concrete component store for the C9 witness: cursor entity 1 over text
block 2 holding "ABCDE" (5 units), caret at 4, zero-length selection,
viewport width 3 on parent 0, unit-width measurement. -/
def ecmC9 : TsEcm :=
  { visibility := fun _ => Visibility.visible
    constraintWidth := fun _ => 2
    constraintHeight := fun _ => 0
    textSelection := fun x => if x = 1 then some ⟨4, 0⟩ else none
    textBlock := fun _ => 2
    marginLeft := fun _ => 0
    marginTop := fun _ => 0
    marginBottom := fun _ => 0
    hasMargin := fun _ => true
    text := fun x => if x = 2 then some [65, 66, 67, 68, 69] else none
    expanded := fun _ => false
    boundsWidth := fun _ => 3
    boundsHeight := fun _ => 0
    hasBounds := fun _ => true
    parent := fun x => if x = 1 then some 0 else none
    children := fun _ => [] }

/-- Witness for C9 on `ecmC9`: caret offset 4, width 2, viewport 3 — the
offset overflows, no skip condition holds, and the theorem applies. -/
theorem caret_window_adjustment_witness :
    ((tslArrange ⟨⟨7, 7, true⟩, ⟨0, 0⟩⟩ ecmC9 (fun t => (t.length : Int))
        (fun _ b _ _ => b) (fun _ => true) (10, 10) 1).map
        ArrangeOut.adjusted = some true ↔
      (ecmC9.expanded 1 = false ∧ tslTextLen ecmC9 (ecmC9.textBlock 1) ≠ 0 ∧
        tslSelStart ecmC9 1 (ecmC9.textBlock 1) ≠ 0)) ∧
    ((ecmC9.expanded 1 = false ∧ tslTextLen ecmC9 (ecmC9.textBlock 1) ≠ 0 ∧
        tslSelStart ecmC9 1 (ecmC9.textBlock 1) ≠ 0) →
      (tslArrange ⟨⟨7, 7, true⟩, ⟨0, 0⟩⟩ ecmC9 (fun t => (t.length : Int))
          (fun _ b _ _ => b) (fun _ => true) (10, 10) 1).map
          (fun o => o.ecm.marginLeft (ecmC9.textBlock 1)) =
        some (-(if tslCaretPos ecmC9 (fun t => (t.length : Int)) 1
              (ecmC9.textBlock 1) < 0 then
            tslCaretPos ecmC9 (fun t => (t.length : Int)) 1 (ecmC9.textBlock 1)
          else
            tslCaretPos ecmC9 (fun t => (t.length : Int)) 1 (ecmC9.textBlock 1)
              - ecmC9.boundsWidth 0 +
              tslSelWidth ecmC9 (fun t => (t.length : Int)) 1
                (ecmC9.textBlock 1) (7 : Int) (ecmC9.constraintWidth 1)))) :=
  caret_window_adjustment ⟨⟨7, 7, true⟩, ⟨0, 0⟩⟩ ecmC9
    (fun t => (t.length : Int)) (fun _ b _ _ => b) (fun _ => true) (10, 10)
    1 0 (by decide) (by decide) (by decide) (by decide) (by decide)

end OrbTk
